import Mathlib

/-!
Verification development for the clicr ingestion engine (src/ingest.py).

The Python source is shallowly embedded: file text is a `List Char`,
paths are `String`s, the persisted fingerprint map and the vector store
are explicit values threaded through the functions, and the external
collaborators (content hashing, file reading, the embedding API) are
oracle parameters.  Machine `int`s in the source are `Nat`/`Int` here.
-/

/-! ## Chunker (src/ingest.py, `chunk_text`, lines 149-201) -/

/-- ASCII whitespace as stripped by Python's `str.strip()` (the source
files are text; only the ASCII whitespace characters are modelled). -/
def isPySpace (c : Char) : Bool :=
  c = ' ' || c = '\t' || c = '\n' || c = '\r' || c = '\x0b' || c = '\x0c'

/-- Python `s.strip()`: drop leading and trailing whitespace. -/
def pyStrip (l : List Char) : List Char :=
  ((l.dropWhile isPySpace).reverse.dropWhile isPySpace).reverse

/-- Python `s.count(chr(10))`: number of newline characters. -/
def countNL (l : List Char) : Nat := l.count '\n'

/-- Python `text[s:e]` (for `s ≤ e ≤ length`). -/
def pySlice (text : List Char) (s e : Nat) : List Char :=
  (text.drop s).take (e - s)

/-- Metadata attached to a chunk by `chunk_text` (the derived display
fields `file_name` and `file_extension` are not modelled; no claim
mentions them). -/
structure ChunkMeta where
  file_path : String
  chunk_index : Nat
  start_line : Nat
  end_line : Nat
deriving DecidableEq

/-- A chunk: trimmed text plus metadata (src/ingest.py lines 185-195). -/
structure Chunk where
  text : List Char
  metadata : ChunkMeta
deriving DecidableEq

/-- Source constant `CHUNK_SIZE = 500`. -/
def CHUNK_SIZE : Nat := 500

/-- Source constant `CHUNK_OVERLAP = 50`. -/
def CHUNK_OVERLAP : Nat := 50

/-- Source constant `BATCH_SIZE = 96` (embedding batch size). -/
def BATCH_SIZE : Nat := 96

/-- The `while start < text_length` loop of `chunk_text`
(src/ingest.py lines 174-199): take the window `text[start:end]`,
strip it, emit it when non-empty, and advance the cursor by
`size - overlap` either way.  The loop is given `text.length` units of
fuel; since the cursor advances by at least one per iteration whenever
`overlap < size`, the fuel is never exhausted before the guard
`start < text_length` fails (proved below as `chunkIters_eq_cdiv`
together with `chunkLoop_length_eq`).  Python diverges when
`size ≤ overlap`; the spec's precondition `size > overlap ≥ 0` is a
hypothesis of every theorem about this function. -/
def chunkLoop (text : List Char) (fp : String) (size ov : Nat) :
    Nat → Nat → Nat → List Chunk
  | _, _, 0 => []
  | start, idx, fuel + 1 =>
    if start < text.length then
      let e := min (start + size) text.length
      let ct := pyStrip (pySlice text start e)
      if ct.isEmpty then
        chunkLoop text fp size ov (start + (size - ov)) idx fuel
      else
        { text := ct,
          metadata :=
            { file_path := fp,
              chunk_index := idx,
              start_line := countNL (text.take start) + 1,
              end_line := countNL (text.take start) + 1 + countNL (pySlice text start e) } } ::
          chunkLoop text fp size ov (start + (size - ov)) (idx + 1) fuel
    else []

/-- `chunk_text(text, file_path, chunk_size, overlap)`
(src/ingest.py lines 149-201): empty or all-whitespace text yields no
chunks (`if not text or not text.strip(): return []`), otherwise run
the window loop from cursor 0. -/
def chunk_text (text : List Char) (fp : String) (size ov : Nat) : List Chunk :=
  if text.isEmpty || (pyStrip text).isEmpty then []
  else chunkLoop text fp size ov 0 0 text.length

/-- The sequence of (start, end) offset pairs of the untrimmed windows
taken by the `chunk_text` loop: window starts at the cursor, ends at
`min (cursor + size) length` (src/ingest.py lines 174-175, 199). -/
def windowsLoop (L size ov : Nat) : Nat → Nat → List (Nat × Nat)
  | _, 0 => []
  | start, fuel + 1 =>
    if start < L then
      (start, min (start + size) L) :: windowsLoop L size ov (start + (size - ov)) fuel
    else []

/-- The untrimmed windows of `chunk_text text fp size ov`. -/
def windows (text : List Char) (size ov : Nat) : List (Nat × Nat) :=
  windowsLoop text.length size ov 0 text.length

/-- Number of iterations executed by the `while start < text_length`
loop of `chunk_text`, started from cursor 0. -/
def itersLoop (L size ov : Nat) : Nat → Nat → Nat
  | _, 0 => 0
  | start, fuel + 1 =>
    if start < L then 1 + itersLoop L size ov (start + (size - ov)) fuel
    else 0

/-- Iteration count of the `chunk_text` loop on `text`. -/
def chunkIters (text : List Char) (size ov : Nat) : Nat :=
  itersLoop text.length size ov 0 text.length

/-- Ceiling division `⌈n / s⌉` on naturals, as used by the spec's
iteration-count formula. -/
def cdiv (n s : Nat) : Nat := (n + s - 1) / s

/-! ## Persisted fingerprint map (src/ingest.py lines 338-419)

Python `dict`s keyed by strings are modelled as association lists in
insertion order: inserting an existing key overwrites in place,
inserting a fresh key appends. -/

/-- Python `d[k]` / `k in d` lookup on the association-list model. -/
def dlookup {β : Type} (d : List (String × β)) (k : String) : Option β :=
  match d with
  | [] => none
  | (k2, v) :: t => if k2 = k then some v else dlookup t k

/-- Python `d[k] = v`: overwrite in place when the key exists,
append otherwise. -/
def dinsert {β : Type} (d : List (String × β)) (k : String) (v : β) :
    List (String × β) :=
  match d with
  | [] => [(k, v)]
  | (k2, v2) :: t => if k2 = k then (k2, v) :: t else (k2, v2) :: dinsert t k v

/-- The keys of a dict, in order. -/
def dkeys {β : Type} (d : List (String × β)) : List String :=
  d.map (fun kv => kv.1)

/-- Python `line.strip().split("::", 1)` restricted to the split at the
first occurrence of the separator `"::"`: `none` when the separator
does not occur (this is also the `"::" in line` membership test of
`load_file_hashes`, src/ingest.py line 372). -/
def splitOnSep : List Char → Option (List Char × List Char)
  | ':' :: ':' :: rest => some ([], rest)
  | c :: rest => (splitOnSep rest).map (fun pr => (c :: pr.1, pr.2))
  | [] => none

/-- `load_file_hashes` (src/ingest.py lines 358-378) over the list of
lines of the persisted file: a line containing `"::"` contributes the
pair obtained by stripping the line and splitting at the first `"::"`;
any other line is skipped.  (The source checks `"::" in line` on the
raw line and then splits the stripped line; `"::"` contains no
whitespace, so when the raw line passes the test the stripped line
splits, and the `none` fallback below is unreachable.) -/
def load_file_hashes (lines : List (List Char)) : List (String × String) :=
  lines.foldl
    (fun hashes line =>
      if (splitOnSep line).isSome then
        match splitOnSep (pyStrip line) with
        | some (p, h) => dinsert hashes (String.mk p) (String.mk h)
        | none => hashes
      else hashes)
    []

/-- The well-formed `path::hash` pairs of a list of lines, in order. -/
def wellFormedPairs (lines : List (List Char)) : List (String × String) :=
  lines.filterMap
    (fun line =>
      if (splitOnSep line).isSome then
        (splitOnSep (pyStrip line)).map (fun pr => (String.mk pr.1, String.mk pr.2))
      else none)

/-- Folding a list of pairs into a dict. -/
def dictOfPairs (ps : List (String × String)) : List (String × String) :=
  ps.foldl (fun d pr => dinsert d pr.1 pr.2) []

/-- `get_modified_files` (src/ingest.py lines 399-419): a candidate
path is modified when it is absent from the loaded map or its stored
hash differs from the current one.  `hashOf` stands for
`get_file_hash` (src/ingest.py lines 338-355), which returns the empty
sentinel string on an I/O error. -/
def get_modified_files (file_paths : List String) (hashOf : String → String)
    (old_hashes : List (String × String)) : List String :=
  file_paths.filter
    (fun p =>
      match dlookup old_hashes p with
      | none => true
      | some h => h != hashOf p)

/-! ## Vector store (src/ingest.py lines 284-335 and 496-576)

Store records carry an identifier of the canonical form `chunk_<N>`
and the owning file's path (the metadata field consulted by the
incremental delete).  Identifiers of this form are represented by
their numeric suffix `N`; this is exactly the store shape assumed by
the spec's identifier claims ("identifiers have the form `chunk_<N>`
and the identifier scan succeeds"), and the only shape the code itself
ever writes.  Embeddings (vectors) are opaque to every claim and are
not carried. -/

structure StoreRec where
  id : Nat
  file_path : String
deriving DecidableEq

/-- ChromaDB's own insert batch limit used by the source
(`batch_size = 1000`, src/ingest.py lines 318 and 558), independent of
the embedding `BATCH_SIZE`. -/
def storageBatchSize : Nat := 1000

/-- Python `for i in range(0, len(rows), bs): rows[i:i+bs]`: the
successive length-`bs` slices of `rows`. -/
def batchSlices {α : Type} (rows : List α) (bs : Nat) : List (List α) :=
  (List.range (cdiv rows.length bs)).map (fun j => (rows.drop (j * bs)).take bs)

/-- The batched `collection.add` loop (src/ingest.py lines 319-327 and
559-567): append each slice of `rows` to the collection in turn. -/
def store_add (coll rows : List StoreRec) (bs : Nat) : List StoreRec :=
  (batchSlices rows bs).foldl (fun c b => c ++ b) coll

/-- The records written by the full rebuild: identifiers
`chunk_0 .. chunk_(n-1)` zipped with the chunks' owning paths in input
order (`ids = [f"chunk_{i}" for i in range(len(chunks))]`,
src/ingest.py lines 311-315). -/
def fullRebuildRecs (chunks : List Chunk) : List StoreRec :=
  ((List.range chunks.length).zip (chunks.map (fun c => c.metadata.file_path))).map
    (fun p => { id := p.1, file_path := p.2 })

/-- `store_in_chromadb` (src/ingest.py lines 284-335): drop any
existing collection under the target name (the `prior` argument is
discarded), create a fresh one, and add the freshly numbered records
in batches of at most `storageBatchSize`. -/
def store_in_chromadb (prior : List StoreRec) (chunks : List Chunk) : List StoreRec :=
  store_add [] (fullRebuildRecs chunks) storageBatchSize

/-- The identifiers collected for deletion by the incremental update:
those of every record whose `file_path` metadata is one of the
modified paths (src/ingest.py lines 526-532). -/
def idsToDelete (store : List StoreRec) (modified : List String) : List Nat :=
  (store.filter (fun r => modified.contains r.file_path)).map (fun r => r.id)

/-- The store after `collection.delete(ids=ids_to_delete)`
(src/ingest.py lines 534-535). -/
def remainingAfterDelete (store : List StoreRec) (modified : List String) :
    List StoreRec :=
  store.filter (fun r => !((idsToDelete store modified).contains r.id))

/-- `max([int(id.split("_")[1]) for id in existing_ids if "_" in id],
default=-1)` (src/ingest.py line 546), over the numeric suffixes of
the identifiers remaining in the store. -/
def maxChunkId (recs : List StoreRec) : Int :=
  recs.foldl (fun a r => max a (r.id : Int)) (-1)

/-- `start_id = max_id + 1` (src/ingest.py line 547). -/
def incStartId (recs : List StoreRec) : Nat :=
  (maxChunkId recs + 1).toNat

/-- `ids = [f"chunk_{start_id + i}" for i in range(len(chunks))]`
(src/ingest.py line 552): the numeric suffixes of the newly allocated
identifiers. -/
def incNewIds (recs : List StoreRec) (n : Nat) : List Nat :=
  (List.range n).map (fun i => incStartId recs + i)

/-- The new records inserted by the incremental update: the freshly
allocated identifiers aligned with the chunks' owning paths
(src/ingest.py lines 552-567). -/
def incNewRecs (recs : List StoreRec) (chunks : List Chunk) : List StoreRec :=
  ((incNewIds recs chunks.length).zip (chunks.map (fun c => c.metadata.file_path))).map
    (fun p => { id := p.1, file_path := p.2 })

/-- `update_chromadb_incremental` (src/ingest.py lines 496-576) on its
success path: delete the records of modified files, scan the remaining
identifiers for the maximal suffix, insert the new chunks under
`chunk_(max+1), ...` in batches.  Returns the updated store along with
the number of deleted and inserted records. -/
def update_chromadb_incremental (store : List StoreRec) (chunks : List Chunk)
    (modified : List String) : List StoreRec × Nat × Nat :=
  (store_add (remainingAfterDelete store modified)
      (incNewRecs (remainingAfterDelete store modified) chunks) storageBatchSize,
    (idsToDelete store modified).length,
    chunks.length)

/-! ## Ingestion pipeline (src/ingest.py, `ingest_codebase`, lines 422-493) -/

/-- The external world as seen by one run: the crawl result
(`crawl_directory`), the content hash per path (`get_file_hash`; the
empty string models its I/O-error sentinel), and the decoded file
content per path (`read_file_safely`; `none` models a decode
failure). -/
structure FS where
  files : List String
  hashOf : String → String
  contentOf : String → Option (List Char)

/-- The persisted state mutated by a run: the fingerprint map (the
contents of `file_hashes.txt`) and the vector store collection. -/
structure PState where
  hashCache : List (String × String)
  store : List StoreRec
deriving DecidableEq

/-- What one run did: final state, number of records deleted from and
inserted into the store, and whether the run reached and completed the
store-update step (steps 5-6 of `ingest_codebase`). -/
structure RunOutcome where
  state : PState
  deletes : Nat
  inserts : Nat
  completedStore : Bool
deriving DecidableEq

/-- `process_files` (src/ingest.py lines 204-237): chunk the decodable
files, concatenating all chunks in file order. -/
def process_files (contentOf : String → Option (List Char)) (paths : List String) :
    List Chunk :=
  paths.foldl
    (fun acc p =>
      match contentOf p with
      | none => acc
      | some content => acc ++ chunk_text content p CHUNK_SIZE CHUNK_OVERLAP)
    []

/-- `embed_chunks_batch` (src/ingest.py lines 240-281): partition the
chunks into batches of at most `BATCH_SIZE`, keep the chunks of every
batch the embedding collaborator accepts (`batchOk`), drop failed
batches entirely. -/
def embed_chunks_batch (chunks : List Chunk) (batchOk : List Chunk → Bool) :
    List Chunk :=
  (batchSlices chunks BATCH_SIZE).foldl
    (fun acc b => if batchOk b then acc ++ b else acc) []

/-- Step 6 of `ingest_codebase` (src/ingest.py lines 479-482): re-crawl
and re-hash everything, building the fresh fingerprint map exactly as
the dict comprehension `{str(fp): get_file_hash(fp) for fp in
all_file_paths}` does. -/
def freshHashDict (fs : FS) : List (String × String) :=
  fs.files.foldl (fun d p => dinsert d p (fs.hashOf p)) []

/-- `ingest_codebase` (src/ingest.py lines 422-493) on its
non-throwing path: crawl, optionally classify modified files, chunk,
embed, update the store (incrementally or by full rebuild), then
rewrite the fingerprint map from a fresh crawl.  Every early return of
the source (`no files`, `no modified files`, `no chunks`, `nothing
embedded`) leaves the persisted state untouched. -/
def ingest_codebase (fs : FS) (batchOk : List Chunk → Bool) (st : PState)
    (incremental : Bool) : RunOutcome :=
  if fs.files.isEmpty then ⟨st, 0, 0, false⟩
  else if incremental then
    let modified := get_modified_files fs.files fs.hashOf st.hashCache
    if modified.isEmpty then ⟨st, 0, 0, false⟩
    else
      let chunks := process_files fs.contentOf modified
      if chunks.isEmpty then ⟨st, 0, 0, false⟩
      else
        let embedded := embed_chunks_batch chunks batchOk
        if embedded.isEmpty then ⟨st, 0, 0, false⟩
        else
          let upd := update_chromadb_incremental st.store embedded modified
          ⟨⟨freshHashDict fs, upd.1⟩, upd.2.1, upd.2.2, true⟩
  else
    let chunks := process_files fs.contentOf fs.files
    if chunks.isEmpty then ⟨st, 0, 0, false⟩
    else
      let embedded := embed_chunks_batch chunks batchOk
      if embedded.isEmpty then ⟨st, 0, 0, false⟩
      else
        ⟨⟨freshHashDict fs, store_in_chromadb st.store embedded⟩, 0, embedded.length, true⟩

/-! ## Watch mode (src/ingest.py, `watch_mode`, lines 579-611)

Python's exception classes, restricted to what the two functions
distinguish: ordinary `Exception` subclasses, `KeyboardInterrupt`
(which derives `BaseException`, not `Exception`), and `SystemExit`
as raised by `sys.exit(code)` (likewise a `BaseException`, not an
`Exception`). -/

inductive PyExc where
  | exception
  | keyboardInterrupt
  | systemExit (code : Nat)
deriving DecidableEq

/-- `except Exception` catches this exception? (`KeyboardInterrupt`
and `SystemExit` derive `BaseException` directly and are not caught.) -/
def isException : PyExc → Bool
  | .exception => true
  | _ => false

/-- `except KeyboardInterrupt` catches this exception? -/
def isKeyboardInterrupt : PyExc → Bool
  | .keyboardInterrupt => true
  | _ => false

/-- The `try/except` of `ingest_codebase` (src/ingest.py lines
441-493): given what its body raises (`none` = completes normally),
what propagates out of the call.  `except KeyboardInterrupt` runs
`sys.exit(0)`; `except Exception` prints the error and runs
`sys.exit(1)`; both handlers therefore raise `SystemExit`. -/
def ingestExcBehavior : Option PyExc → Option PyExc
  | none => none
  | some e =>
    if isKeyboardInterrupt e then some (.systemExit 0)
    else if isException e then some (.systemExit 1)
    else some e

/-- One iteration of the `watch_mode` loop (src/ingest.py lines
595-611), given what the ingestion body raises inside
`ingest_codebase`: the inner `except Exception` logs and sleeps
(the loop continues); the outer `except KeyboardInterrupt` runs
`sys.exit(0)`; anything else — in particular the `SystemExit` raised
inside `ingest_codebase` — escapes both handlers and terminates the
process with its code. -/
def watch_cycle (bodyEvent : Option PyExc) : Option Nat :=
  match ingestExcBehavior bodyEvent with
  | none => none
  | some .exception => none
  | some .keyboardInterrupt => some 0
  | some (.systemExit c) => some c

/-! ## Arithmetic helper lemmas about ceiling division -/

lemma cdiv_of_zero (s : Nat) : cdiv 0 s = 0 := by
  unfold cdiv
  cases s with
  | zero => rfl
  | succ s => exact Nat.div_eq_of_lt (by omega)

lemma cdiv_step (n s : Nat) (hn : 0 < n) (hs : 0 < s) :
    cdiv n s = cdiv (n - s) s + 1 := by
  unfold cdiv
  have h1 : n + s - 1 = (n - 1) + s := by omega
  rw [h1, Nat.add_div_right _ hs]
  by_cases hcase : n ≤ s
  · have h2 : n - s = 0 := by omega
    rw [h2]
    have h3 : (n - 1) / s = 0 := Nat.div_eq_of_lt (by omega)
    have h4 : (0 + s - 1) / s = 0 := Nat.div_eq_of_lt (by omega)
    omega
  · have h2 : n - s + s - 1 = (n - s - 1) + s := by omega
    have h3 : (n - 1) / s = (n - 1 - s) / s + 1 :=
      Nat.div_eq_sub_div hs (by omega)
    have h4 : n - 1 - s = n - s - 1 := by omega
    rw [h4] at h3
    rw [h2, Nat.add_div_right _ hs, h3]

lemma lt_cdiv_iff (j n s : Nat) (hs : 0 < s) : j < cdiv n s ↔ j * s < n := by
  unfold cdiv
  rw [Nat.lt_iff_add_one_le, Nat.le_div_iff_mul_le hs, Nat.add_mul, Nat.one_mul]
  omega

/-! ## Window characterization of the chunk loop -/

lemma windowsLoop_eq (L size ov : Nat) (hso : ov < size) :
    ∀ fuel start, L ≤ start + fuel * (size - ov) →
      windowsLoop L size ov start fuel =
        (List.range (cdiv (L - start) (size - ov))).map
          (fun i => (start + i * (size - ov), min (start + i * (size - ov) + size) L)) := by
  intro fuel
  induction fuel with
  | zero =>
    intro start h
    have h2 : L - start = 0 := by omega
    simp [windowsLoop, h2, cdiv_of_zero]
  | succ fuel ih =>
    intro start h
    rw [Nat.succ_mul] at h
    by_cases hlt : start < L
    · have hn : 0 < L - start := by omega
      have hstep : 0 < size - ov := by omega
      rw [windowsLoop, if_pos hlt, cdiv_step _ _ hn hstep, List.range_succ_eq_map]
      have harg : L - start - (size - ov) = L - (start + (size - ov)) := by omega
      rw [harg]
      have htail := ih (start + (size - ov)) (by omega)
      rw [htail]
      simp only [List.map_cons, List.map_map]
      congr 1
      · simp
      · apply List.map_congr_left
        intro i _
        have hx : start + (size - ov) + i * (size - ov) = start + (i + 1) * (size - ov) := by
          rw [Nat.succ_mul]
          omega
        simp [Function.comp_apply, hx]
    · have h2 : L - start = 0 := by omega
      rw [windowsLoop, if_neg hlt]
      simp [h2, cdiv_of_zero]

lemma windows_eq (text : List Char) (size ov : Nat) (hso : ov < size) :
    windows text size ov =
      (List.range (cdiv text.length (size - ov))).map
        (fun i => (i * (size - ov), min (i * (size - ov) + size) text.length)) := by
  unfold windows
  have h := windowsLoop_eq text.length size ov hso text.length 0
    (by
      have : text.length * 1 ≤ text.length * (size - ov) :=
        Nat.mul_le_mul_left text.length (by omega)
      omega)
  simpa using h

lemma windows_length (text : List Char) (size ov : Nat) (hso : ov < size) :
    (windows text size ov).length = cdiv text.length (size - ov) := by
  rw [windows_eq text size ov hso]
  simp

lemma itersLoop_eq_length (L size ov : Nat) :
    ∀ fuel start, itersLoop L size ov start fuel = (windowsLoop L size ov start fuel).length := by
  intro fuel
  induction fuel with
  | zero => intro start; rfl
  | succ fuel ih =>
    intro start
    rw [itersLoop, windowsLoop]
    by_cases hlt : start < L
    · rw [if_pos hlt, if_pos hlt, ih]
      rw [List.length_cons]
      omega
    · rw [if_neg hlt, if_neg hlt]
      rfl

lemma chunkLoop_length_eq (text : List Char) (fp : String) (size ov : Nat) :
    ∀ fuel start idx,
      (chunkLoop text fp size ov start idx fuel).length =
        (windowsLoop text.length size ov start fuel).countP
          (fun w => !(pyStrip (pySlice text w.1 w.2)).isEmpty) := by
  intro fuel
  induction fuel with
  | zero => intro start idx; rfl
  | succ fuel ih =>
    intro start idx
    simp only [chunkLoop, windowsLoop]
    by_cases hlt : start < text.length
    · rw [if_pos hlt, if_pos hlt, List.countP_cons]
      by_cases hempty : (pyStrip (pySlice text start (min (start + size) text.length))).isEmpty
      · rw [if_pos hempty, ih]
        simp [hempty]
      · rw [if_neg hempty, List.length_cons, ih]
        simp [hempty]
    · rw [if_neg hlt, if_neg hlt]
      rfl

lemma pyStrip_eq_nil_iff (l : List Char) :
    pyStrip l = [] ↔ ∀ c ∈ l, isPySpace c := by
  unfold pyStrip
  rw [List.reverse_eq_nil_iff, List.dropWhile_eq_nil_iff]
  constructor
  · intro h c hc
    by_cases hdrop : c ∈ l.dropWhile isPySpace
    · exact h c (List.mem_reverse.mpr hdrop)
    · have hsplit : c ∈ l.takeWhile isPySpace ++ l.dropWhile isPySpace := by
        rw [List.takeWhile_append_dropWhile]
        exact hc
      rcases List.mem_append.mp hsplit with htake | hd
      · exact List.mem_takeWhile_imp htake
      · exact absurd hd hdrop
  · intro h c hc
    have hc2 : c ∈ l.dropWhile isPySpace := List.mem_reverse.mp hc
    have hsub : List.Sublist (l.dropWhile isPySpace) l := List.dropWhile_sublist isPySpace
    exact h c (hsub.subset hc2)

lemma pyStrip_pySlice_of_all_space (text : List Char) (s e : Nat)
    (h : pyStrip text = []) : pyStrip (pySlice text s e) = [] := by
  rw [pyStrip_eq_nil_iff] at h ⊢
  intro c hc
  exact h c (List.mem_of_mem_drop (List.mem_of_mem_take hc))

lemma chunk_text_length_eq_countP (text : List Char) (fp : String) (size ov : Nat) :
    (chunk_text text fp size ov).length =
      (windows text size ov).countP
        (fun w => !(pyStrip (pySlice text w.1 w.2)).isEmpty) := by
  unfold chunk_text windows
  by_cases hempty : text.isEmpty || (pyStrip text).isEmpty
  · rw [if_pos hempty]
    rcases Bool.or_eq_true_iff.mp hempty with h | h
    · have h2 : text.length = 0 := by
        simpa [List.isEmpty_iff_length_eq_zero] using h
      rw [h2]
      rfl
    · have h2 : pyStrip text = [] := by simpa [List.isEmpty_iff] using h
      rw [List.length_nil, Eq.comm, List.countP_eq_zero]
      intro w _
      simp [pyStrip_pySlice_of_all_space text w.1 w.2 h2]
  · rw [if_neg hempty]
    exact chunkLoop_length_eq text fp size ov text.length 0 0

lemma windows_getElem (text : List Char) (size ov i : Nat) (hso : ov < size)
    (w : Nat × Nat) (h : (windows text size ov)[i]? = some w) :
    i < cdiv text.length (size - ov) ∧
      w = (i * (size - ov), min (i * (size - ov) + size) text.length) := by
  rw [windows_eq text size ov hso, List.getElem?_map] at h
  by_cases hik : i < cdiv text.length (size - ov)
  · rw [List.getElem?_range hik] at h
    exact ⟨hik, (Option.some.inj h).symm⟩
  · rw [List.getElem?_eq_none (by simpa using Nat.le_of_not_lt hik)] at h
    simp at h

lemma chunkLoop_mem (text : List Char) (fp : String) (size ov : Nat) :
    ∀ fuel start idx c, c ∈ chunkLoop text fp size ov start idx fuel →
      ∃ s, s < text.length ∧
        c.metadata.start_line = countNL (text.take s) + 1 ∧
        c.metadata.end_line =
          c.metadata.start_line + countNL (pySlice text s (min (s + size) text.length)) ∧
        c.text = pyStrip (pySlice text s (min (s + size) text.length)) := by
  intro fuel
  induction fuel with
  | zero =>
    intro start idx c hc
    simp [chunkLoop] at hc
  | succ fuel ih =>
    intro start idx c hc
    simp only [chunkLoop] at hc
    by_cases hlt : start < text.length
    · rw [if_pos hlt] at hc
      by_cases hempty : (pyStrip (pySlice text start (min (start + size) text.length))).isEmpty
      · rw [if_pos hempty] at hc
        exact ih _ _ _ hc
      · rw [if_neg hempty] at hc
        rcases List.mem_cons.mp hc with heq | htail
        · subst heq
          exact ⟨start, hlt, rfl, rfl, rfl⟩
        · exact ih _ _ _ htail
    · rw [if_neg hlt] at hc
      simp at hc

/-- C6: every emitted chunk's `start_line` is 1 plus the number of
newlines strictly before its window's start offset, and its `end_line`
is `start_line` plus the number of newlines inside the untrimmed
window; on the text `"a\nb\nc\nd\ne"` with `size=4, overlap=0` the
first chunk has `start_line = 1` and `end_line = 1 +` the number of
newlines among the first 4 characters. -/
theorem C6_line_attribution (text : List Char) (fp : String) (size ov : Nat) :
    (∀ c ∈ chunk_text text fp size ov,
      ∃ s, s < text.length ∧
        c.metadata.start_line = countNL (text.take s) + 1 ∧
        c.metadata.end_line =
          c.metadata.start_line + countNL (pySlice text s (min (s + size) text.length))) ∧
    (chunk_text ['a', '\n', 'b', '\n', 'c', '\n', 'd', '\n', 'e'] "f" 4 0).head?.map
        (fun c => (c.metadata.start_line, c.metadata.end_line)) =
      some (1, 1 + countNL (['a', '\n', 'b', '\n', 'c', '\n', 'd', '\n', 'e'].take 4)) := by
  constructor
  · intro c hc
    unfold chunk_text at hc
    by_cases hguard : text.isEmpty || (pyStrip text).isEmpty
    · rw [if_pos hguard] at hc
      simp at hc
    · rw [if_neg hguard] at hc
      obtain ⟨s, h1, h2, h3, _⟩ := chunkLoop_mem text fp size ov text.length 0 0 c hc
      exact ⟨s, h1, h2, h3⟩
  · decide

/-- Witness for C6 at a concrete input: the first chunk of
`"a\nb\nc\nd\ne"` with `size=4, overlap=0` is a member of the output,
and the theorem's line-attribution conclusion holds of it. -/
theorem C6_line_attribution_witness :
    ({ text := ['a', '\n', 'b'],
       metadata :=
        { file_path := "f", chunk_index := 0, start_line := 1, end_line := 3 } } : Chunk) ∈
        chunk_text ['a', '\n', 'b', '\n', 'c', '\n', 'd', '\n', 'e'] "f" 4 0 ∧
    (∃ s, s < (['a', '\n', 'b', '\n', 'c', '\n', 'd', '\n', 'e'] : List Char).length ∧
      ({ text := ['a', '\n', 'b'],
         metadata :=
          { file_path := "f", chunk_index := 0, start_line := 1, end_line := 3 } } :
            Chunk).metadata.start_line =
        countNL ((['a', '\n', 'b', '\n', 'c', '\n', 'd', '\n', 'e'] : List Char).take s) + 1 ∧
      ({ text := ['a', '\n', 'b'],
         metadata :=
          { file_path := "f", chunk_index := 0, start_line := 1, end_line := 3 } } :
            Chunk).metadata.end_line =
        ({ text := ['a', '\n', 'b'],
           metadata :=
            { file_path := "f", chunk_index := 0, start_line := 1, end_line := 3 } } :
              Chunk).metadata.start_line +
          countNL (pySlice ['a', '\n', 'b', '\n', 'c', '\n', 'd', '\n', 'e'] s
            (min (s + 4) (['a', '\n', 'b', '\n', 'c', '\n', 'd', '\n', 'e'] : List Char).length))) :=
  ⟨by decide,
    (C6_line_attribution ['a', '\n', 'b', '\n', 'c', '\n', 'd', '\n', 'e'] "f" 4 0).1 _
      (by decide)⟩

/-- C5: under the precondition `size > overlap ≥ 0`, the `chunk_text`
loop runs exactly `⌈length / (size - overlap)⌉` iterations (the cursor
advances by `size - overlap` on every iteration whether or not a chunk
was emitted), and the returned list has at most that many chunks. -/
theorem C5_chunk_loop_termination (text : List Char) (fp : String) (size ov : Nat)
    (hso : ov < size) :
    chunkIters text size ov = cdiv text.length (size - ov) ∧
    (chunk_text text fp size ov).length ≤ cdiv text.length (size - ov) := by
  have hlen := windows_length text size ov hso
  unfold windows at hlen
  constructor
  · unfold chunkIters
    rw [itersLoop_eq_length]
    exact hlen
  · rw [chunk_text_length_eq_countP]
    calc (windows text size ov).countP
          (fun w => !(pyStrip (pySlice text w.1 w.2)).isEmpty)
        ≤ (windows text size ov).length := List.countP_le_length _
      _ = cdiv text.length (size - ov) := hlen

/-- Witness for C5 at a concrete input. -/
theorem C5_chunk_loop_termination_witness :
    1 < 3 ∧
    (chunkIters ['h', 'e', 'l', 'l', 'o'] 3 1 = cdiv 5 2 ∧
      (chunk_text ['h', 'e', 'l', 'l', 'o'] "f" 3 1).length ≤ cdiv 5 2) :=
  ⟨by decide, C5_chunk_loop_termination ['h', 'e', 'l', 'l', 'o'] "f" 3 1 (by decide)⟩

/-- C4 (amended): for `size=500, overlap=50` the untrimmed windows
jointly cover `[0, L)`; consecutive windows overlap in exactly
`min 50 (L - 450·(i+1))` characters — in particular in exactly 50
characters for every non-final pair of windows (only the final pair
can overlap in fewer, when the last window is shorter than the
overlap); there are exactly `⌈L/450⌉` windows, and the chunker emits
at most that many chunks, fewer exactly by the number of windows whose
trimmed text is empty (whitespace-only windows are dropped). -/
theorem C4_window_coverage_amended (text : List Char) (fp : String) :
    (∀ off, off < text.length →
      ∃ w ∈ windows text 500 50, w.1 ≤ off ∧ off < w.2) ∧
    (∀ i w w2, (windows text 500 50)[i]? = some w →
      (windows text 500 50)[i + 1]? = some w2 →
      w.2 - w2.1 = min 50 (text.length - 450 * (i + 1))) ∧
    (∀ i w w2, (windows text 500 50)[i]? = some w →
      (windows text 500 50)[i + 1]? = some w2 →
      i + 2 < (windows text 500 50).length → w.2 - w2.1 = 50) ∧
    (windows text 500 50).length = cdiv text.length 450 ∧
    (chunk_text text fp 500 50).length =
      (windows text 500 50).countP
        (fun w => !(pyStrip (pySlice text w.1 w.2)).isEmpty) ∧
    (chunk_text text fp 500 50).length ≤ cdiv text.length 450 := by
  have hso : (50 : Nat) < 500 := by norm_num
  have h45 : (500 : Nat) - 50 = 450 := by norm_num
  have hlen : (windows text 500 50).length = cdiv text.length 450 := by
    rw [windows_length text 500 50 hso, h45]
  refine ⟨?_, ?_, ?_, hlen, ?_, ?_⟩
  · intro off hoff
    have hw := windows_eq text 500 50 hso
    rw [h45] at hw
    set i := off / 450 with hi
    have hmul : i * 450 ≤ off := Nat.div_mul_le_self off 450
    have hik : i < cdiv text.length 450 := by
      rw [lt_cdiv_iff i text.length 450 (by norm_num)]
      omega
    refine ⟨(i * 450, min (i * 450 + 500) text.length), ?_, ?_, ?_⟩
    · rw [hw]
      exact List.mem_map_of_mem _ (List.mem_range.mpr hik)
    · exact hmul
    · have hmod := Nat.div_add_mod off 450
      have hmodlt : off % 450 < 450 := Nat.mod_lt off (by norm_num)
      simp only [Nat.lt_min]
      omega
  · intro i w w2 h1 h2
    obtain ⟨hik, hw⟩ := windows_getElem text 500 50 i hso w h1
    obtain ⟨hik2, hw2⟩ := windows_getElem text 500 50 (i + 1) hso w2 h2
    rw [h45] at hw hw2
    have hlt : (i + 1) * 450 < text.length := by
      rw [← lt_cdiv_iff (i + 1) text.length 450 (by norm_num)]
      rwa [h45] at hik2
    subst hw
    subst hw2
    simp only []
    have hsm : (i + 1) * 450 = i * 450 + 450 := by
      rw [Nat.succ_mul]
    omega
  · intro i w w2 h1 h2 hfin
    obtain ⟨hik, hw⟩ := windows_getElem text 500 50 i hso w h1
    obtain ⟨hik2, hw2⟩ := windows_getElem text 500 50 (i + 1) hso w2 h2
    rw [h45] at hw hw2
    rw [hlen] at hfin
    have hlt2 : (i + 2) * 450 < text.length := by
      rw [← lt_cdiv_iff (i + 2) text.length 450 (by norm_num)] at *
      exact hfin
    subst hw
    subst hw2
    simp only []
    have hsm : (i + 1) * 450 = i * 450 + 450 := by
      rw [Nat.succ_mul]
    have hsm2 : (i + 2) * 450 = i * 450 + 900 := by
      have : i + 2 = (i + 1) + 1 := rfl
      rw [this, Nat.succ_mul, Nat.succ_mul]
    omega
  · exact chunk_text_length_eq_countP text fp 500 50
  · rw [chunk_text_length_eq_countP]
    calc (windows text 500 50).countP
          (fun w => !(pyStrip (pySlice text w.1 w.2)).isEmpty)
        ≤ (windows text 500 50).length := List.countP_le_length _
      _ = cdiv text.length 450 := hlen

set_option maxRecDepth 8000 in
/-- Witness for C4 (amended) at a concrete input: on a text of 460
characters the two windows are (0,460) and (450,460), and the final
pair overlaps in `min 50 (460 - 450) = 10` characters. -/
theorem C4_window_coverage_amended_witness :
    ((windows (List.replicate 460 'a') 500 50)[0]? = some (0, 460)) ∧
    ((windows (List.replicate 460 'a') 500 50)[0 + 1]? = some (450, 460)) ∧
    ((0, 460) : Nat × Nat).2 - ((450, 460) : Nat × Nat).1 =
      min 50 ((List.replicate 460 'a' : List Char).length - 450 * (0 + 1)) :=
  ⟨by decide, by decide,
    (C4_window_coverage_amended (List.replicate 460 'a') "a.py").2.1 0 (0, 460) (450, 460)
      (by decide) (by decide)⟩

set_option maxRecDepth 8000 in
/-- Counterexample to C4 as stated: on a text of 460 non-whitespace
characters the claim's conjunction fails, because the two consecutive
windows (0,460) and (450,460) overlap in 10 characters, not exactly
50. -/
theorem C4_window_overlap_counterexample :
    ¬ ((∀ off, off < (List.replicate 460 'a' : List Char).length →
          ∃ w ∈ windows (List.replicate 460 'a') 500 50, w.1 ≤ off ∧ off < w.2) ∧
       (∀ p ∈ (windows (List.replicate 460 'a') 500 50).zip
            ((windows (List.replicate 460 'a') 500 50).tail),
          p.1.2 - p.2.1 = 50) ∧
       (chunk_text (List.replicate 460 'a') "a.py" 500 50).length ≤ cdiv 460 450) := by
  intro h
  exact absurd (h.2.1 ((0, 460), (450, 460)) (by decide)) (by decide)

/-! ## Dictionary lemmas -/

lemma dlookup_dinsert_self {β : Type} (d : List (String × β)) (k : String) (v : β) :
    dlookup (dinsert d k v) k = some v := by
  induction d with
  | nil => simp [dinsert, dlookup]
  | cons kv t ih =>
    obtain ⟨k2, v2⟩ := kv
    by_cases h : k2 = k
    · simp [dinsert, dlookup, h]
    · simp [dinsert, dlookup, h, ih]

lemma dkeys_cons {β : Type} (k2 : String) (v2 : β) (t : List (String × β)) :
    dkeys ((k2, v2) :: t) = k2 :: dkeys t := rfl

lemma dlookup_dinsert_ne {β : Type} (d : List (String × β)) (k q : String) (v : β)
    (h : q ≠ k) : dlookup (dinsert d k v) q = dlookup d q := by
  induction d with
  | nil => simp [dinsert, dlookup, Ne.symm h]
  | cons kv t ih =>
    obtain ⟨k2, v2⟩ := kv
    by_cases h2 : k2 = k
    · subst h2
      simp [dinsert, dlookup, Ne.symm h]
    · simp only [dinsert, if_neg h2]
      by_cases h3 : k2 = q
      · simp [dlookup, h3]
      · simp [dlookup, h3, ih]

lemma dlookup_foldl_dinsert (files : List String) (hf : String → String) :
    ∀ (d : List (String × String)) (q : String),
      dlookup (files.foldl (fun d2 p => dinsert d2 p (hf p)) d) q =
        if q ∈ files then some (hf q) else dlookup d q := by
  induction files with
  | nil => intro d q; simp
  | cons p t ih =>
    intro d q
    rw [List.foldl_cons, ih]
    by_cases hqt : q ∈ t
    · simp [hqt, List.mem_cons]
    · by_cases hqp : q = p
      · subst hqp
        simp [hqt, dlookup_dinsert_self]
      · simp [hqt, hqp, dlookup_dinsert_ne d p q (hf p) hqp]

lemma dkeys_dinsert_of_mem {β : Type} (d : List (String × β)) (k : String) (v : β)
    (h : k ∈ dkeys d) : dkeys (dinsert d k v) = dkeys d := by
  induction d with
  | nil => simp [dkeys] at h
  | cons kv t ih =>
    obtain ⟨k2, v2⟩ := kv
    rw [dkeys_cons] at h
    by_cases h2 : k2 = k
    · simp [dinsert, dkeys_cons, h2]
    · have hkt : k ∈ dkeys t := by
        rcases List.mem_cons.mp h with h3 | h3
        · exact absurd h3.symm h2
        · exact h3
      simp [dinsert, dkeys_cons, h2, ih hkt]

lemma dkeys_dinsert_of_not_mem {β : Type} (d : List (String × β)) (k : String) (v : β)
    (h : k ∉ dkeys d) : dkeys (dinsert d k v) = dkeys d ++ [k] := by
  induction d with
  | nil => simp [dinsert, dkeys]
  | cons kv t ih =>
    obtain ⟨k2, v2⟩ := kv
    rw [dkeys_cons] at h
    have h2 : k2 ≠ k := fun he => h (he ▸ List.mem_cons_self k2 (dkeys t))
    have hkt : k ∉ dkeys t := fun hm => h (List.mem_cons_of_mem k2 hm)
    simp [dinsert, dkeys_cons, h2, ih hkt]

lemma dkeys_foldl_dinsert (files : List String) (hf : String → String) :
    ∀ (d : List (String × String)), files.Nodup → (∀ p ∈ files, p ∉ dkeys d) →
      dkeys (files.foldl (fun d2 p => dinsert d2 p (hf p)) d) = dkeys d ++ files := by
  induction files with
  | nil => intro d _ _; simp
  | cons p t ih =>
    intro d hnd hdisj
    rw [List.foldl_cons]
    have hpd : p ∉ dkeys d := hdisj p (List.mem_cons_self p t)
    have hkeys : dkeys (dinsert d p (hf p)) = dkeys d ++ [p] :=
      dkeys_dinsert_of_not_mem d p (hf p) hpd
    have hnd2 : t.Nodup := (List.nodup_cons.mp hnd).2
    have hpt : p ∉ t := (List.nodup_cons.mp hnd).1
    have hdisj2 : ∀ q ∈ t, q ∉ dkeys (dinsert d p (hf p)) := by
      intro q hq
      rw [hkeys]
      intro hmem
      rcases List.mem_append.mp hmem with hmem | hmem
      · exact hdisj q (List.mem_cons_of_mem p hq) hmem
      · rcases List.mem_singleton.mp hmem with rfl
        exact hpt hq
    rw [ih (dinsert d p (hf p)) hnd2 hdisj2, hkeys]
    simp

lemma freshHashDict_lookup (fs : FS) (q : String) :
    dlookup (freshHashDict fs) q =
      if q ∈ fs.files then some (fs.hashOf q) else none := by
  unfold freshHashDict
  rw [dlookup_foldl_dinsert]
  rfl

lemma freshHashDict_keys (fs : FS) (h : fs.files.Nodup) :
    dkeys (freshHashDict fs) = fs.files := by
  unfold freshHashDict
  have hd := dkeys_foldl_dinsert fs.files fs.hashOf [] h (by simp [dkeys])
  simpa [dkeys] using hd

/-- C2 counterexample: the claim fails as stated.  When the persisted
map itself records the empty sentinel hash for a path (as
`save_file_hashes` writes when `get_file_hash` failed during the
previous run), a file whose hash cannot be computed now (modelled by
the hash oracle returning the empty sentinel) is NOT classified as
modified: the two empty sentinels compare equal. -/
theorem C2_unreadable_file_counterexample :
    "f.py" ∉ get_modified_files ["f.py"] (fun _ => "") [("f.py", "")] := by
  decide

/-- C2 (amended): a candidate file whose content hash cannot be
computed (the hash oracle returns the empty sentinel string) is
classified as modified unless the persisted fingerprint map itself
maps that path to the empty sentinel. -/
theorem C2_unreadable_file_modified_amended (file_paths : List String)
    (hashOf : String → String) (old_hashes : List (String × String)) (p : String)
    (h1 : p ∈ file_paths) (h2 : hashOf p = "")
    (h3 : dlookup old_hashes p ≠ some "") :
    p ∈ get_modified_files file_paths hashOf old_hashes := by
  unfold get_modified_files
  rw [List.mem_filter]
  refine ⟨h1, ?_⟩
  cases hl : dlookup old_hashes p with
  | none => rfl
  | some hsh =>
    have hne : hsh ≠ "" := by
      intro he
      exact h3 (by rw [hl, he])
    rw [h2]
    simpa using hne

/-- Witness for C2 (amended) at a concrete input. -/
theorem C2_unreadable_file_modified_amended_witness :
    ("g.py" ∈ ["g.py"] ∧ (fun _ : String => "") "g.py" = "" ∧
      dlookup [("g.py", "h")] "g.py" ≠ some "") ∧
    "g.py" ∈ get_modified_files ["g.py"] (fun _ => "") [("g.py", "h")] :=
  ⟨⟨by decide, by decide, by decide⟩,
    C2_unreadable_file_modified_amended ["g.py"] (fun _ => "") [("g.py", "h")] "g.py"
      (by decide) (by decide) (by decide)⟩

lemma load_file_hashes_filter (lines : List (List Char)) :
    ∀ acc : List (String × String),
      lines.foldl
        (fun hashes line =>
          if (splitOnSep line).isSome then
            match splitOnSep (pyStrip line) with
            | some (p, h) => dinsert hashes (String.mk p) (String.mk h)
            | none => hashes
          else hashes) acc =
      (lines.filter (fun l => (splitOnSep l).isSome)).foldl
        (fun hashes line =>
          if (splitOnSep line).isSome then
            match splitOnSep (pyStrip line) with
            | some (p, h) => dinsert hashes (String.mk p) (String.mk h)
            | none => hashes
          else hashes) acc := by
  induction lines with
  | nil => intro acc; rfl
  | cons l t ih =>
    intro acc
    by_cases hsep : (splitOnSep l).isSome
    · have hf : List.filter (fun l2 => (splitOnSep l2).isSome) (l :: t) =
          l :: List.filter (fun l2 => (splitOnSep l2).isSome) t := by
        simp [List.filter_cons, hsep]
      rw [hf, List.foldl_cons, List.foldl_cons, ih]
    · have hf : List.filter (fun l2 => (splitOnSep l2).isSome) (l :: t) =
          List.filter (fun l2 => (splitOnSep l2).isSome) t := by
        simp [List.filter_cons, hsep]
      rw [hf, List.foldl_cons, if_neg hsep, ih]

lemma load_file_hashes_pairs (lines : List (List Char)) :
    ∀ acc : List (String × String),
      lines.foldl
        (fun hashes line =>
          if (splitOnSep line).isSome then
            match splitOnSep (pyStrip line) with
            | some (p, h) => dinsert hashes (String.mk p) (String.mk h)
            | none => hashes
          else hashes) acc =
      (wellFormedPairs lines).foldl (fun d pr => dinsert d pr.1 pr.2) acc := by
  induction lines with
  | nil => intro acc; rfl
  | cons l t ih =>
    intro acc
    rw [List.foldl_cons]
    unfold wellFormedPairs
    rw [List.filterMap_cons]
    by_cases hsep : (splitOnSep l).isSome
    · cases hsp : splitOnSep (pyStrip l) with
      | none =>
        simp only [if_pos hsep]
        have h2 := ih acc
        unfold wellFormedPairs at h2
        exact h2
      | some pr =>
        obtain ⟨p, h⟩ := pr
        simp only [if_pos hsep]
        have h2 := ih (dinsert acc (String.mk p) (String.mk h))
        unfold wellFormedPairs at h2
        exact h2
    · simp only [if_neg hsep]
      have h2 := ih acc
      unfold wellFormedPairs at h2
      exact h2

/-- C9: loading the persisted fingerprint file never crashes on a
malformed line — every line lacking the `::` separator is skipped (the
load of any line list equals the load of its well-formed sublist), and
the result is exactly the dictionary of all well-formed `path::hash`
pairs that were read. -/
theorem C9_load_hashes_skips_malformed (lines : List (List Char)) :
    load_file_hashes lines =
      load_file_hashes (lines.filter (fun l => (splitOnSep l).isSome)) ∧
    load_file_hashes lines = dictOfPairs (wellFormedPairs lines) := by
  constructor
  · exact load_file_hashes_filter lines []
  · exact load_file_hashes_pairs lines []

/-- C7: if the persisted fingerprint map is exactly what a completed
incremental (or full) run saved — the fresh crawl's path-to-hash map —
and nothing changed on the filesystem (same crawl result, same hashes),
then a second incremental run classifies zero files as modified,
performs zero store deletes and zero store inserts, and leaves the
store (hence its record count) unchanged. -/
theorem C7_incremental_idempotence (fs : FS) (batchOk : List Chunk → Bool) (st : PState)
    (hsaved : st.hashCache = freshHashDict fs) :
    get_modified_files fs.files fs.hashOf st.hashCache = [] ∧
    (ingest_codebase fs batchOk st true).deletes = 0 ∧
    (ingest_codebase fs batchOk st true).inserts = 0 ∧
    (ingest_codebase fs batchOk st true).state.store = st.store ∧
    (ingest_codebase fs batchOk st true).state.store.length = st.store.length := by
  have hmod : get_modified_files fs.files fs.hashOf st.hashCache = [] := by
    rw [hsaved]
    unfold get_modified_files
    rw [List.filter_eq_nil_iff]
    intro p hp
    rw [freshHashDict_lookup fs p, if_pos hp]
    simp
  have hout : ingest_codebase fs batchOk st true = ⟨st, 0, 0, false⟩ := by
    unfold ingest_codebase
    by_cases hfe : fs.files.isEmpty
    · rw [if_pos hfe]
    · rw [if_neg hfe]
      simp [hmod]
  exact ⟨hmod, by rw [hout], by rw [hout], by rw [hout], by rw [hout]⟩

/-- Witness for C7 at a concrete input: a one-file world whose
persisted map is exactly the fresh crawl's hashes. -/
theorem C7_incremental_idempotence_witness :
    (({ hashCache := [("a.py", "h")], store := [{ id := 0, file_path := "a.py" }] } :
        PState).hashCache =
      freshHashDict
        { files := ["a.py"], hashOf := fun _ => "h", contentOf := fun _ => some ['x'] }) ∧
    (get_modified_files ["a.py"] (fun _ => "h") [("a.py", "h")] = [] ∧
      (ingest_codebase
          { files := ["a.py"], hashOf := fun _ => "h", contentOf := fun _ => some ['x'] }
          (fun _ => true)
          { hashCache := [("a.py", "h")], store := [{ id := 0, file_path := "a.py" }] }
          true).deletes = 0 ∧
      (ingest_codebase
          { files := ["a.py"], hashOf := fun _ => "h", contentOf := fun _ => some ['x'] }
          (fun _ => true)
          { hashCache := [("a.py", "h")], store := [{ id := 0, file_path := "a.py" }] }
          true).inserts = 0 ∧
      (ingest_codebase
          { files := ["a.py"], hashOf := fun _ => "h", contentOf := fun _ => some ['x'] }
          (fun _ => true)
          { hashCache := [("a.py", "h")], store := [{ id := 0, file_path := "a.py" }] }
          true).state.store = [{ id := 0, file_path := "a.py" }] ∧
      (ingest_codebase
          { files := ["a.py"], hashOf := fun _ => "h", contentOf := fun _ => some ['x'] }
          (fun _ => true)
          { hashCache := [("a.py", "h")], store := [{ id := 0, file_path := "a.py" }] }
          true).state.store.length =
        ([{ id := 0, file_path := "a.py" }] : List StoreRec).length) :=
  ⟨by decide,
    C7_incremental_idempotence
      { files := ["a.py"], hashOf := fun _ => "h", contentOf := fun _ => some ['x'] }
      (fun _ => true)
      { hashCache := [("a.py", "h")], store := [{ id := 0, file_path := "a.py" }] }
      (by decide)⟩

/-! ## Store lemmas -/

lemma foldl_append_eq {α : Type} (l : List (List α)) :
    ∀ c : List α, l.foldl (fun a b => a ++ b) c = c ++ l.flatten := by
  induction l with
  | nil => intro c; simp
  | cons h t ih =>
    intro c
    rw [List.foldl_cons, ih (c ++ h)]
    simp

lemma batchSlices_nil {α : Type} (bs : Nat) : batchSlices ([] : List α) bs = [] := by
  unfold batchSlices
  simp [cdiv_of_zero]

lemma batchSlices_cons {α : Type} (rows : List α) (bs : Nat) (hbs : 0 < bs)
    (hne : rows ≠ []) :
    batchSlices rows bs = rows.take bs :: batchSlices (rows.drop bs) bs := by
  unfold batchSlices
  have hlen : 0 < rows.length := List.length_pos.mpr hne
  rw [cdiv_step rows.length bs hlen hbs, List.range_succ_eq_map]
  rw [List.map_cons, List.map_map]
  have hdl : (rows.drop bs).length = rows.length - bs := List.length_drop bs rows
  rw [hdl]
  congr 1
  · simp
  · apply List.map_congr_left
    intro j _
    have hdd : rows.drop ((j + 1) * bs) = (rows.drop bs).drop (j * bs) := by
      rw [List.drop_drop]
      congr 1
      rw [Nat.succ_mul]
      omega
    simp [Function.comp_apply, hdd]

lemma batchSlices_flatten {α : Type} (bs : Nat) (hbs : 0 < bs) :
    ∀ n (rows : List α), rows.length ≤ n → (batchSlices rows bs).flatten = rows := by
  intro n
  induction n with
  | zero =>
    intro rows hlen
    have : rows = [] := List.eq_nil_of_length_eq_zero (by omega)
    subst this
    simp [batchSlices_nil]
  | succ n ih =>
    intro rows hlen
    by_cases hne : rows = []
    · subst hne
      simp [batchSlices_nil]
    · rw [batchSlices_cons rows bs hbs hne, List.flatten_cons]
      have hdrop : (rows.drop bs).length ≤ n := by
        rw [List.length_drop]
        have : 0 < rows.length := List.length_pos.mpr hne
        omega
      rw [ih (rows.drop bs) hdrop]
      exact List.take_append_drop bs rows

lemma batchSlices_bounded {α : Type} (rows : List α) (bs : Nat) :
    ∀ b ∈ batchSlices rows bs, b.length ≤ bs := by
  intro b hb
  unfold batchSlices at hb
  obtain ⟨j, _, rfl⟩ := List.mem_map.mp hb
  exact List.length_take_le bs _

lemma store_add_eq (coll rows : List StoreRec) (bs : Nat) (hbs : 0 < bs) :
    store_add coll rows bs = coll ++ rows := by
  unfold store_add
  rw [foldl_append_eq, batchSlices_flatten bs hbs rows.length rows (le_refl _)]

lemma maxChunkId_init_le (recs : List StoreRec) :
    ∀ a : Int, a ≤ recs.foldl (fun x r => max x (r.id : Int)) a := by
  induction recs with
  | nil => intro a; simp
  | cons r t ih =>
    intro a
    rw [List.foldl_cons]
    calc a ≤ max a (r.id : Int) := le_max_left _ _
      _ ≤ t.foldl (fun x rr => max x (rr.id : Int)) (max a (r.id : Int)) := ih _

lemma mem_le_maxChunkId_aux (recs : List StoreRec) :
    ∀ (a : Int) (r : StoreRec), r ∈ recs →
      (r.id : Int) ≤ recs.foldl (fun x rr => max x (rr.id : Int)) a := by
  induction recs with
  | nil =>
    intro a r hr
    simp at hr
  | cons r2 t ih =>
    intro a r hr
    rw [List.foldl_cons]
    rcases List.mem_cons.mp hr with rfl | hmem
    · calc (r.id : Int) ≤ max a (r.id : Int) := le_max_right _ _
        _ ≤ t.foldl (fun x rr => max x (rr.id : Int)) (max a (r.id : Int)) :=
          maxChunkId_init_le t _
    · exact ih _ r hmem

lemma mem_lt_incStartId (recs : List StoreRec) (r : StoreRec) (h : r ∈ recs) :
    r.id < incStartId recs := by
  have h1 : (r.id : Int) ≤ maxChunkId recs := mem_le_maxChunkId_aux recs (-1) r h
  have h2 : (-1 : Int) ≤ maxChunkId recs := maxChunkId_init_le recs (-1)
  unfold incStartId
  omega

lemma incNewRecs_map_id (recs : List StoreRec) (chunks : List Chunk) :
    (incNewRecs recs chunks).map (fun r => r.id) = incNewIds recs chunks.length := by
  unfold incNewRecs
  rw [List.map_map]
  have hlen : (incNewIds recs chunks.length).length ≤
      (chunks.map (fun c => c.metadata.file_path)).length := by
    simp [incNewIds]
  calc ((incNewIds recs chunks.length).zip
          (chunks.map (fun c => c.metadata.file_path))).map
        ((fun r => StoreRec.id r) ∘ (fun p => { id := p.1, file_path := p.2 }))
      = ((incNewIds recs chunks.length).zip
          (chunks.map (fun c => c.metadata.file_path))).map Prod.fst := by
        apply List.map_congr_left
        intro p _
        rfl
    _ = incNewIds recs chunks.length := List.map_fst_zip _ _ hlen

lemma mem_incNewIds (recs : List StoreRec) (n i : Nat) (h : i ∈ incNewIds recs n) :
    incStartId recs ≤ i := by
  unfold incNewIds at h
  obtain ⟨j, _, rfl⟩ := List.mem_map.mp h
  omega

/-- C1: on the incremental update's success path — after the records
of modified files are deleted — the new identifiers start at one plus
the maximal numeric suffix remaining in the store (-1 when none
remain), so every new identifier's suffix is strictly greater than
every remaining old identifier's suffix, no new identifier collides
with any identifier currently in the store, and identifier uniqueness
is preserved.  Identifiers of the canonical form `chunk_<N>` (the
claim's hypothesis, and the only form the code writes) are represented
by their numeric suffix `N`. -/
theorem C1_incremental_id_allocation (store : List StoreRec) (modified : List String)
    (chunks : List Chunk) (hnodup : (store.map (fun r => r.id)).Nodup) :
    (update_chromadb_incremental store chunks modified).1 =
      remainingAfterDelete store modified ++
        incNewRecs (remainingAfterDelete store modified) chunks ∧
    (∀ nr ∈ incNewRecs (remainingAfterDelete store modified) chunks,
      ∀ orr ∈ remainingAfterDelete store modified, orr.id < nr.id) ∧
    (∀ nr ∈ incNewRecs (remainingAfterDelete store modified) chunks,
      nr.id ∉ (remainingAfterDelete store modified).map (fun r => r.id)) ∧
    ((remainingAfterDelete store modified ++
        incNewRecs (remainingAfterDelete store modified) chunks).map
      (fun r => r.id)).Nodup := by
  have hstart : ∀ nr ∈ incNewRecs (remainingAfterDelete store modified) chunks,
      incStartId (remainingAfterDelete store modified) ≤ nr.id := by
    intro nr hnr
    have hid : nr.id ∈ (incNewRecs (remainingAfterDelete store modified) chunks).map
        (fun r => r.id) := List.mem_map_of_mem _ hnr
    rw [incNewRecs_map_id] at hid
    exact mem_incNewIds _ _ _ hid
  have hgt : ∀ nr ∈ incNewRecs (remainingAfterDelete store modified) chunks,
      ∀ orr ∈ remainingAfterDelete store modified, orr.id < nr.id := by
    intro nr hnr orr horr
    have h1 := mem_lt_incStartId (remainingAfterDelete store modified) orr horr
    have h2 := hstart nr hnr
    omega
  refine ⟨?_, hgt, ?_, ?_⟩
  · unfold update_chromadb_incremental
    exact store_add_eq _ _ storageBatchSize (by norm_num [storageBatchSize])
  · intro nr hnr hmem
    obtain ⟨orr, horr, hoe⟩ := List.mem_map.mp hmem
    have := hgt nr hnr orr horr
    omega
  · rw [List.map_append, List.nodup_append]
    refine ⟨?_, ?_, ?_⟩
    · have hsub : List.Sublist (remainingAfterDelete store modified) store :=
        List.filter_sublist store
      exact (hsub.map (fun r => r.id)).nodup hnodup
    · rw [incNewRecs_map_id]
      unfold incNewIds
      refine List.Nodup.map ?_ (List.nodup_range _)
      intro a b hab
      simpa using hab
    · intro a ha hb
      obtain ⟨orr, horr, hoe⟩ := List.mem_map.mp ha
      obtain ⟨nr, hnr, hne⟩ := List.mem_map.mp hb
      have := hgt nr hnr orr horr
      omega

/-- Witness for C1 at a concrete input: a two-record store with
identifier suffixes 0 and 1, one modified file, one new chunk. -/
theorem C1_incremental_id_allocation_witness :
    (([{ id := 0, file_path := "a" }, { id := 1, file_path := "b" }] :
        List StoreRec).map (fun r => r.id)).Nodup ∧
    ((update_chromadb_incremental
        [{ id := 0, file_path := "a" }, { id := 1, file_path := "b" }]
        [{ text := ['x'],
           metadata :=
            { file_path := "a", chunk_index := 0, start_line := 1, end_line := 1 } }]
        ["a"]).1 =
      remainingAfterDelete
          [{ id := 0, file_path := "a" }, { id := 1, file_path := "b" }] ["a"] ++
        incNewRecs
          (remainingAfterDelete
            [{ id := 0, file_path := "a" }, { id := 1, file_path := "b" }] ["a"])
          [{ text := ['x'],
             metadata :=
              { file_path := "a", chunk_index := 0, start_line := 1, end_line := 1 } }] ∧
      (∀ nr ∈ incNewRecs
          (remainingAfterDelete
            [{ id := 0, file_path := "a" }, { id := 1, file_path := "b" }] ["a"])
          [{ text := ['x'],
             metadata :=
              { file_path := "a", chunk_index := 0, start_line := 1, end_line := 1 } }],
        ∀ orr ∈ remainingAfterDelete
            [{ id := 0, file_path := "a" }, { id := 1, file_path := "b" }] ["a"],
          orr.id < nr.id) ∧
      (∀ nr ∈ incNewRecs
          (remainingAfterDelete
            [{ id := 0, file_path := "a" }, { id := 1, file_path := "b" }] ["a"])
          [{ text := ['x'],
             metadata :=
              { file_path := "a", chunk_index := 0, start_line := 1, end_line := 1 } }],
        nr.id ∉ (remainingAfterDelete
            [{ id := 0, file_path := "a" }, { id := 1, file_path := "b" }] ["a"]).map
          (fun r => r.id)) ∧
      ((remainingAfterDelete
            [{ id := 0, file_path := "a" }, { id := 1, file_path := "b" }] ["a"] ++
          incNewRecs
            (remainingAfterDelete
              [{ id := 0, file_path := "a" }, { id := 1, file_path := "b" }] ["a"])
            [{ text := ['x'],
               metadata :=
                { file_path := "a", chunk_index := 0, start_line := 1,
                  end_line := 1 } }]).map (fun r => r.id)).Nodup) :=
  ⟨by decide,
    C1_incremental_id_allocation
      [{ id := 0, file_path := "a" }, { id := 1, file_path := "b" }] ["a"]
      [{ text := ['x'],
         metadata :=
          { file_path := "a", chunk_index := 0, start_line := 1, end_line := 1 } }]
      (by decide)⟩

lemma fullRebuildRecs_map_id (chunks : List Chunk) :
    (fullRebuildRecs chunks).map (fun r => r.id) = List.range chunks.length := by
  unfold fullRebuildRecs
  rw [List.map_map]
  have hlen : (List.range chunks.length).length ≤
      (chunks.map (fun c => c.metadata.file_path)).length := by simp
  calc ((List.range chunks.length).zip
          (chunks.map (fun c => c.metadata.file_path))).map
        ((fun r => StoreRec.id r) ∘ (fun p => { id := p.1, file_path := p.2 }))
      = ((List.range chunks.length).zip
          (chunks.map (fun c => c.metadata.file_path))).map Prod.fst := by
        apply List.map_congr_left
        intro p _
        rfl
    _ = List.range chunks.length := List.map_fst_zip _ _ hlen

lemma fullRebuildRecs_map_path (chunks : List Chunk) :
    (fullRebuildRecs chunks).map (fun r => r.file_path) =
      chunks.map (fun c => c.metadata.file_path) := by
  unfold fullRebuildRecs
  rw [List.map_map]
  have hlen : (chunks.map (fun c => c.metadata.file_path)).length ≤
      (List.range chunks.length).length := by simp
  calc ((List.range chunks.length).zip
          (chunks.map (fun c => c.metadata.file_path))).map
        ((fun r => StoreRec.file_path r) ∘ (fun p => { id := p.1, file_path := p.2 }))
      = ((List.range chunks.length).zip
          (chunks.map (fun c => c.metadata.file_path))).map Prod.snd := by
        apply List.map_congr_left
        intro p _
        rfl
    _ = chunks.map (fun c => c.metadata.file_path) := List.map_snd_zip _ _ hlen

/-- C8: the full rebuild discards any existing collection (the result
does not depend on the prior store), assigns the sequential identifier
suffixes `0 .. n-1` (`chunk_0 .. chunk_(n-1)`) to the embedded chunks
in input order, and inserts them in batches each bounded by the
storage batch limit 1000, a constant independent of the embedding
batch size 96. -/
theorem C8_full_rebuild (prior prior2 : List StoreRec) (chunks : List Chunk) :
    store_in_chromadb prior chunks = store_in_chromadb prior2 chunks ∧
    store_in_chromadb prior chunks = fullRebuildRecs chunks ∧
    (store_in_chromadb prior chunks).map (fun r => r.id) = List.range chunks.length ∧
    (store_in_chromadb prior chunks).map (fun r => r.file_path) =
      chunks.map (fun c => c.metadata.file_path) ∧
    (∀ b ∈ batchSlices (fullRebuildRecs chunks) storageBatchSize,
      b.length ≤ storageBatchSize) ∧
    (batchSlices (fullRebuildRecs chunks) storageBatchSize).flatten =
      fullRebuildRecs chunks ∧
    storageBatchSize = 1000 ∧ BATCH_SIZE = 96 := by
  have hbs : 0 < storageBatchSize := by norm_num [storageBatchSize]
  have heq : store_in_chromadb prior chunks = fullRebuildRecs chunks := by
    unfold store_in_chromadb
    rw [store_add_eq _ _ _ hbs]
    simp
  refine ⟨?_, heq, ?_, ?_, batchSlices_bounded _ _, ?_, rfl, rfl⟩
  · unfold store_in_chromadb
    rfl
  · rw [heq]
    exact fullRebuildRecs_map_id chunks
  · rw [heq]
    exact fullRebuildRecs_map_path chunks
  · exact batchSlices_flatten storageBatchSize hbs _ (fullRebuildRecs chunks) (le_refl _)

/-- C10: whenever a run (full or incremental) reaches and completes
the store-update step, the persisted fingerprint map is rewritten in
full from a fresh crawl: it becomes exactly the crawl's path-to-hash
map — one entry per currently eligible file holding that file's
current hash — and entries for paths no longer returned by the crawl
(deleted or ineligible files) are gone. -/
theorem C10_hash_map_rewritten (fs : FS) (batchOk : List Chunk → Bool) (st : PState)
    (inc : Bool) (hnodup : fs.files.Nodup)
    (hreach : (ingest_codebase fs batchOk st inc).completedStore = true) :
    (ingest_codebase fs batchOk st inc).state.hashCache = freshHashDict fs ∧
    dkeys (ingest_codebase fs batchOk st inc).state.hashCache = fs.files ∧
    (∀ p ∈ fs.files,
      dlookup (ingest_codebase fs batchOk st inc).state.hashCache p =
        some (fs.hashOf p)) ∧
    (∀ p, p ∉ fs.files →
      dlookup (ingest_codebase fs batchOk st inc).state.hashCache p = none) := by
  have hcache : (ingest_codebase fs batchOk st inc).state.hashCache = freshHashDict fs := by
    revert hreach
    unfold ingest_codebase
    dsimp only
    split
    · intro h
      simp at h
    · split
      · split
        · intro h
          simp at h
        · split
          · intro h
            simp at h
          · split
            · intro h
              simp at h
            · intro _
              rfl
      · split
        · intro h
          simp at h
        · split
          · intro h
            simp at h
          · intro _
            rfl
  refine ⟨hcache, ?_, ?_, ?_⟩
  · rw [hcache]
    exact freshHashDict_keys fs hnodup
  · intro p hp
    rw [hcache, freshHashDict_lookup fs p, if_pos hp]
  · intro p hp
    rw [hcache, freshHashDict_lookup fs p, if_neg hp]

/-- Witness for C10 at a concrete input: a one-file world, an empty
prior state, a run that reaches and completes the store update. -/
theorem C10_hash_map_rewritten_witness :
    ((["a.py"] : List String).Nodup ∧
      (ingest_codebase
          { files := ["a.py"], hashOf := fun _ => "h2", contentOf := fun _ => some ['y'] }
          (fun _ => true) { hashCache := [], store := [] } true).completedStore = true) ∧
    ((ingest_codebase
        { files := ["a.py"], hashOf := fun _ => "h2", contentOf := fun _ => some ['y'] }
        (fun _ => true) { hashCache := [], store := [] } true).state.hashCache =
      freshHashDict
        { files := ["a.py"], hashOf := fun _ => "h2", contentOf := fun _ => some ['y'] } ∧
    dkeys (ingest_codebase
        { files := ["a.py"], hashOf := fun _ => "h2", contentOf := fun _ => some ['y'] }
        (fun _ => true) { hashCache := [], store := [] } true).state.hashCache =
      ["a.py"] ∧
    (∀ p ∈ (["a.py"] : List String),
      dlookup (ingest_codebase
          { files := ["a.py"], hashOf := fun _ => "h2", contentOf := fun _ => some ['y'] }
          (fun _ => true) { hashCache := [], store := [] } true).state.hashCache p =
        some ((fun _ => "h2") p)) ∧
    (∀ p, p ∉ (["a.py"] : List String) →
      dlookup (ingest_codebase
          { files := ["a.py"], hashOf := fun _ => "h2", contentOf := fun _ => some ['y'] }
          (fun _ => true) { hashCache := [], store := [] } true).state.hashCache p =
        none)) :=
  ⟨⟨by decide, by decide⟩,
    C10_hash_map_rewritten
      { files := ["a.py"], hashOf := fun _ => "h2", contentOf := fun _ => some ['y'] }
      (fun _ => true) { hashCache := [], store := [] } true (by decide) (by decide)⟩

/-- C3 (code evaluation at the failing input): contrary to the claim,
a cycle whose ingestion body raises an ordinary `Exception` does NOT
continue to the next cycle — `ingest_codebase`'s own handler turns it
into `sys.exit(1)`, and the resulting `SystemExit` is caught neither
by the watch loop's `except Exception` nor by its
`except KeyboardInterrupt`, so the process exits with status 1.  Only
a body completing normally yields another cycle, and a
`KeyboardInterrupt` exits with status 0. -/
theorem C3_watch_cycle_failure_exits :
    watch_cycle (some PyExc.exception) = some 1 ∧
    watch_cycle (some PyExc.exception) ≠ none ∧
    watch_cycle none = none ∧
    watch_cycle (some PyExc.keyboardInterrupt) = some 0 := by
  decide
